import Mathlib

/-!
Verification of the SequenceOps component of js-functions (src/js-functions.cpp).

Vectors (`std::vector`) are embedded as Lean `List`s; the push_back loops of the
source become structural recursions producing the same sequence of pushed
elements in the same order.  Loop indices (C++ `int idx` running over
`[0, size)`) are embedded as `Nat`.

The accumulator of `reduce` is declared `Product result;` in the source, which
is default-initialization: for scalar Products (such as the demonstration's
`double`) no initialization is performed, so the accumulator starts with
indeterminate contents.  The embedding makes those initial contents an
explicit parameter ranging over every value the object could hold, so the
theorems about reduce quantify over the indeterminate start.
-/

namespace JS

/-- Element-only map overload (src/js-functions.cpp lines 28-34): iterate the
input left to right and push `converter item` for each element.  The source
loop header is `for (Item& item : values)`, binding a non-const reference to
elements of the const input vector, so every instantiation of this overload is
ill-formed and it can never be called (the repository compiles only because
the demonstration never uses it).  This definition models the evidently
intended traversal, with the binding made const as in the element-only filter
(line 47). -/
def map {Item Product : Type} (values : List Item) (converter : Item → Product) :
    List Product :=
  match values with
  | [] => []
  | item :: rest => converter item :: map rest converter

/-- The indexed loop of the index-aware map overload (lines 19-26), with the
loop counter `idx` made an explicit argument: at each step push
`converter values[idx] idx` and increment the counter. -/
def mapWithIndexFrom {Item Product : Type} (converter : Item → Nat → Product) :
    Nat → List Item → List Product
  | _, [] => []
  | idx, v :: vs => converter v idx :: mapWithIndexFrom converter (idx + 1) vs

/-- Index-aware map overload (lines 19-26): the loop starts at `idx = 0`. -/
def mapWithIndex {Item Product : Type} (values : List Item)
    (converter : Item → Nat → Product) : List Product :=
  mapWithIndexFrom converter 0 values

/-- Element-only filter overload (lines 45-52): push each element whose
condition evaluates to `true`, keeping traversal order. -/
def filter {Item : Type} (values : List Item) (condition : Item → Bool) :
    List Item :=
  match values with
  | [] => []
  | v :: vs => if condition v = true then v :: filter vs condition else filter vs condition

/-- The indexed loop of the index-aware filter overload (lines 56-63), with the
loop counter explicit: at each step test `condition values[idx] idx` and push
`values[idx]` when it holds. -/
def filterWithIndexFrom {Item : Type} (condition : Item → Nat → Bool) :
    Nat → List Item → List Item
  | _, [] => []
  | idx, v :: vs =>
    if condition v idx = true then v :: filterWithIndexFrom condition (idx + 1) vs
    else filterWithIndexFrom condition (idx + 1) vs

/-- Index-aware filter overload (lines 56-63): the loop starts at `idx = 0`. -/
def filterWithIndex {Item : Type} (values : List Item)
    (condition : Item → Nat → Bool) : List Item :=
  filterWithIndexFrom condition 0 values

/-- The accumulation loop of reduce (lines 73-81): `result = reducer(result, value)`
once per element, left to right. -/
def reduceLoop {Item Product : Type} (reducer : Product → Item → Product) :
    Product → List Item → Product
  | result, [] => result
  | result, v :: vs => reduceLoop reducer (reducer result v) vs

/-- Reduce (lines 73-81): run the accumulation loop from the initial contents
of the accumulator.  The source declares `Product result;`, which is
default-initialization: for class-type Products the default constructor runs,
but for scalar Products no initialization is performed and the accumulator
starts with indeterminate contents.  The parameter `init` stands for those
initial contents, ranging over every value the object could hold. -/
def reduce {Item Product : Type} (init : Product) (values : List Item)
    (reducer : Product → Item → Product) : Product :=
  reduceLoop reducer init values

/-- Trace of the arguments passed to the condition by the index-aware filter
loop: iteration `idx` invokes `condition(values[idx], idx)` unconditionally,
so the trace does not depend on the condition at all. -/
def filterWithIndexCallsFrom {Item : Type} : Nat → List Item → List (Item × Nat)
  | _, [] => []
  | idx, v :: vs => (v, idx) :: filterWithIndexCallsFrom (idx + 1) vs

/-- Trace of condition invocations of the index-aware filter, from `idx = 0`. -/
def filterWithIndexCalls {Item : Type} (values : List Item) : List (Item × Nat) :=
  filterWithIndexCallsFrom 0 values

/-- Modelled from the spec: section 4.3 prescribes pure "returns new accumulator"
left-fold semantics for reduce.  The initial accumulator contents are held
common with the implementation (the shared parameter `init`), so the
comparison is about the fold structure, not the seed. -/
def specReduce {Item Product : Type} (init : Product) (values : List Item)
    (reducer : Product → Item → Product) : Product :=
  values.foldl reducer init

end JS

section Lemmas

variable {Item Product : Type}

lemma JS.map_eq_list_map (values : List Item) (f : Item → Product) :
    JS.map values f = values.map f := by
  induction values with
  | nil => rfl
  | cons v vs ih => simp [JS.map, ih]

lemma JS.filter_eq_list_filter (values : List Item) (p : Item → Bool) :
    JS.filter values p = values.filter p := by
  induction values with
  | nil => rfl
  | cons v vs ih =>
    by_cases h : p v
    · simp [JS.filter, h, ih]
    · simp [JS.filter, h, ih]

lemma JS.reduceLoop_eq_foldl (r : Product → Item → Product) (init : Product)
    (values : List Item) : JS.reduceLoop r init values = values.foldl r init := by
  induction values generalizing init with
  | nil => rfl
  | cons v vs ih => simp [JS.reduceLoop, List.foldl, ih]

lemma JS.mapWithIndexFrom_getElem (f : Item → Nat → Product) (s : Nat)
    (values : List Item) (i : Nat) :
    (JS.mapWithIndexFrom f s values)[i]? = values[i]?.map (fun v => f v (s + i)) := by
  induction values generalizing s i with
  | nil => simp [JS.mapWithIndexFrom]
  | cons v vs ih =>
    cases i with
    | zero => simp [JS.mapWithIndexFrom]
    | succ j =>
      simp only [JS.mapWithIndexFrom, List.getElem?_cons_succ, ih]
      have : s + 1 + j = s + (j + 1) := by omega
      rw [this]

lemma JS.mapWithIndexFrom_length (f : Item → Nat → Product) (s : Nat)
    (values : List Item) :
    (JS.mapWithIndexFrom f s values).length = values.length := by
  induction values generalizing s with
  | nil => rfl
  | cons v vs ih => simp [JS.mapWithIndexFrom, ih]

lemma JS.filterWithIndexCallsFrom_getElem (s : Nat) (values : List Item) (k : Nat) :
    (JS.filterWithIndexCallsFrom s values)[k]? = values[k]?.map (fun v => (v, s + k)) := by
  induction values generalizing s k with
  | nil => simp [JS.filterWithIndexCallsFrom]
  | cons v vs ih =>
    cases k with
    | zero => simp [JS.filterWithIndexCallsFrom]
    | succ j =>
      simp only [JS.filterWithIndexCallsFrom, List.getElem?_cons_succ, ih]
      have : s + 1 + j = s + (j + 1) := by omega
      rw [this]

lemma JS.filterWithIndexFrom_eq_calls (p : Item → Nat → Bool) (s : Nat)
    (values : List Item) :
    JS.filterWithIndexFrom p s values =
      ((JS.filterWithIndexCallsFrom s values).filter (fun c => p c.1 c.2)).map Prod.fst := by
  induction values generalizing s with
  | nil => rfl
  | cons v vs ih =>
    by_cases h : p v s
    · simp [JS.filterWithIndexFrom, JS.filterWithIndexCallsFrom, h, ih]
    · simp [JS.filterWithIndexFrom, JS.filterWithIndexCallsFrom, h, ih]

lemma JS.filterWithIndexFrom_sublist (p : Item → Nat → Bool) (s : Nat)
    (values : List Item) :
    List.Sublist (JS.filterWithIndexFrom p s values) values := by
  induction values generalizing s with
  | nil => simp [JS.filterWithIndexFrom]
  | cons v vs ih =>
    by_cases h : p v s
    · simpa [JS.filterWithIndexFrom, h] using List.Sublist.cons₂ v (ih (s + 1))
    · simpa [JS.filterWithIndexFrom, h] using List.Sublist.cons v (ih (s + 1))

end Lemmas

namespace JS

/-- One checked run of a source loop over `values`: the state is the pair of
the (const-qualified) input sequence and the loop accumulator, `fuel` counts
the remaining iterations and `idx` is the current loop counter.  Every element
access goes through the bounds-checked lookup `[idx]?`, and an out-of-range
access aborts the run with `none`; the loop body `body` may update only the
accumulator, mirroring that the source loop bodies never assign to `values`. -/
def loopRun {Item Acc : Type} (body : Acc → Item → Nat → Acc) :
    Nat → Nat → List Item × Acc → Option (List Item × Acc)
  | 0, _, s => some s
  | fuel + 1, idx, s =>
    match s.1[idx]? with
    | none => none
    | some v => loopRun body fuel (idx + 1) (s.1, body s.2 v idx)

/-- Pure fold used to describe the accumulator produced by a loop run. -/
def foldIdx {Item Acc : Type} (body : Acc → Item → Nat → Acc) :
    List Item → Nat → Acc → Acc
  | [], _, acc => acc
  | v :: vs, idx, acc => foldIdx body vs (idx + 1) (body acc v idx)

/-- Checked run of the index-aware map loop (lines 19-26). -/
def mapWithIndexRun {Item Product : Type} (values : List Item)
    (f : Item → Nat → Product) : Option (List Item × List Product) :=
  loopRun (fun acc v i => acc ++ [f v i]) values.length 0 (values, [])

/-- Checked run of the index-aware filter loop (lines 56-63). -/
def filterWithIndexRun {Item : Type} (values : List Item)
    (p : Item → Nat → Bool) : Option (List Item × List Item) :=
  loopRun (fun acc v i => if p v i = true then acc ++ [v] else acc)
    values.length 0 (values, [])

/-- Checked run of the element-only map loop (lines 28-34); its range-for
traversal visits exactly the elements at indices 0..size-1, in order. -/
def mapRun {Item Product : Type} (values : List Item) (f : Item → Product) :
    Option (List Item × List Product) :=
  loopRun (fun acc v _ => acc ++ [f v]) values.length 0 (values, [])

/-- Checked run of the element-only filter loop (lines 45-52). -/
def filterRun {Item : Type} (values : List Item) (p : Item → Bool) :
    Option (List Item × List Item) :=
  loopRun (fun acc v _ => if p v = true then acc ++ [v] else acc)
    values.length 0 (values, [])

/-- Checked run of the reduce loop (lines 73-81), from the given initial
accumulator contents. -/
def reduceRun {Item Product : Type} (init : Product) (values : List Item)
    (r : Product → Item → Product) : Option (List Item × Product) :=
  loopRun (fun acc v _ => r acc v) values.length 0 (values, init)

end JS

section LoopLemmas

variable {Item Acc Product : Type}

lemma JS.loopRun_eq_foldIdx (body : Acc → Item → Nat → Acc) (values : List Item) :
    ∀ (rest : List Item) (idx : Nat) (acc : Acc), values.drop idx = rest →
      JS.loopRun body rest.length idx (values, acc) =
        some (values, JS.foldIdx body rest idx acc) := by
  intro rest
  induction rest with
  | nil => intro idx acc _; rfl
  | cons v vs ih =>
    intro idx acc hdrop
    have hv : values[idx]? = some v := by
      have h0 : (values.drop idx)[0]? = values[idx + 0]? := by
        rw [List.getElem?_drop]
      rw [hdrop] at h0
      simpa using h0.symm
    have hnext : values.drop (idx + 1) = vs := by
      have : values.drop (idx + 1) = (values.drop idx).drop 1 := by
        rw [List.drop_drop]
      rw [this, hdrop]
      rfl
    simp only [JS.loopRun, hv, JS.foldIdx]
    exact ih (idx + 1) (body acc v idx) hnext

lemma JS.loopRun_full (body : Acc → Item → Nat → Acc) (values : List Item)
    (acc : Acc) :
    JS.loopRun body values.length 0 (values, acc) =
      some (values, JS.foldIdx body values 0 acc) := by
  have := JS.loopRun_eq_foldIdx body values values 0 acc (by simp)
  simpa using this

lemma JS.foldIdx_mapBody (f : Item → Nat → Product) (vs : List Item) :
    ∀ (idx : Nat) (acc : List Product),
      JS.foldIdx (fun acc v i => acc ++ [f v i]) vs idx acc =
        acc ++ JS.mapWithIndexFrom f idx vs := by
  induction vs with
  | nil => intro idx acc; simp [JS.foldIdx, JS.mapWithIndexFrom]
  | cons v vs ih =>
    intro idx acc
    simp [JS.foldIdx, JS.mapWithIndexFrom, ih]

lemma JS.foldIdx_filterBody (p : Item → Nat → Bool) (vs : List Item) :
    ∀ (idx : Nat) (acc : List Item),
      JS.foldIdx (fun acc v i => if p v i = true then acc ++ [v] else acc) vs idx acc =
        acc ++ JS.filterWithIndexFrom p idx vs := by
  induction vs with
  | nil => intro idx acc; simp [JS.foldIdx, JS.filterWithIndexFrom]
  | cons v vs ih =>
    intro idx acc
    by_cases h : p v idx
    · simp [JS.foldIdx, JS.filterWithIndexFrom, h, ih]
    · simp [JS.foldIdx, JS.filterWithIndexFrom, h, ih]

lemma JS.foldIdx_mapElemBody (f : Item → Product) (vs : List Item) :
    ∀ (idx : Nat) (acc : List Product),
      JS.foldIdx (fun acc v _ => acc ++ [f v]) vs idx acc = acc ++ JS.map vs f := by
  induction vs with
  | nil => intro idx acc; simp [JS.foldIdx, JS.map]
  | cons v vs ih =>
    intro idx acc
    simp [JS.foldIdx, JS.map, ih]

lemma JS.foldIdx_filterElemBody (p : Item → Bool) (vs : List Item) :
    ∀ (idx : Nat) (acc : List Item),
      JS.foldIdx (fun acc v _ => if p v = true then acc ++ [v] else acc) vs idx acc =
        acc ++ JS.filter vs p := by
  induction vs with
  | nil => intro idx acc; simp [JS.foldIdx, JS.filter]
  | cons v vs ih =>
    intro idx acc
    by_cases h : p v
    · simp [JS.foldIdx, JS.filter, h, ih]
    · simp [JS.foldIdx, JS.filter, h, ih]

lemma JS.foldIdx_reduceBody (r : Product → Item → Product) (vs : List Item) :
    ∀ (idx : Nat) (acc : Product),
      JS.foldIdx (fun acc v _ => r acc v) vs idx acc = JS.reduceLoop r acc vs := by
  induction vs with
  | nil => intro idx acc; rfl
  | cons v vs ih =>
    intro idx acc
    simp [JS.foldIdx, JS.reduceLoop, ih]

end LoopLemmas

/-- Record type of the demonstration program (src/js-functions.cpp lines 90-111):
two textual fields and one integer field.  Ages are embedded as `Int`
(the C++ field is `int`). -/
structure Person where
  firstName : String
  lastName : String
  age : Int
deriving DecidableEq

/-- The demonstration input (lines 115-121): six records with ages
[22, 21, 21, 24, 18, 21]. -/
def people : List Person :=
  [⟨"Butter", "Riolu", 22⟩, ⟨"Farmer", "Joes", 21⟩, ⟨"Juke", "Duke", 21⟩,
   ⟨"Life", "Happens", 24⟩, ⟨"Looped", "Needs Help", 18⟩, ⟨"Land", "Woof", 21⟩]

/-- Demonstration step 1 (lines 126-129): keep people with age >= 21. -/
def canDrinkAlcohol : List Person :=
  JS.filter people (fun dude => decide (dude.age ≥ 21))

/-- Demonstration step 2 (lines 133-136): index-aware filter keeping even
positions of the previous result. -/
def everyEvenPerson : List Person :=
  JS.filterWithIndex canDrinkAlcohol (fun _ idx => idx % 2 == 0)

/-- Demonstration step 3 (lines 141-145): index-aware map to "N. First Last",
with N the position plus one. -/
def names : List String :=
  JS.mapWithIndex everyEvenPerson
    (fun dude idx => toString (idx + 1) ++ ". " ++ dude.firstName ++ " " ++ dude.lastName)

/-- Demonstration step 4 (lines 149-152): reduce the original list by summing
ages.  The C++ accumulator type is `double`; all addends are small integers,
so every intermediate double value is an exactly represented integer and the
accumulation is embedded over `Int`.  The accumulator is the uninitialized
`double result;` of reduce, so the sum starts from its indeterminate initial
contents, taken here as the parameter `init`. -/
def totalAge (init : Int) : Int :=
  JS.reduce init people (fun t dude => t + dude.age)

/-- C1: for every sequence and transform, both map overloads return a sequence
of the input's length whose i-th element is the transform of the i-th input
element (with the index also passed in the index-aware overload); the empty
input yields the empty output. -/
theorem map_contract {Item Product : Type} (values : List Item)
    (f : Item → Product) (g : Item → Nat → Product) :
    (JS.map values f).length = values.length ∧
    (JS.mapWithIndex values g).length = values.length ∧
    (∀ i : Nat, (JS.map values f)[i]? = values[i]?.map f) ∧
    (∀ i : Nat, (JS.mapWithIndex values g)[i]? = values[i]?.map (fun v => g v i)) ∧
    JS.map ([] : List Item) f = [] ∧ JS.mapWithIndex ([] : List Item) g = [] := by
  refine ⟨?_, ?_, ?_, ?_, rfl, rfl⟩
  · rw [JS.map_eq_list_map, List.length_map]
  · exact JS.mapWithIndexFrom_length g 0 values
  · intro i
    rw [JS.map_eq_list_map, List.getElem?_map]
  · intro i
    simpa using JS.mapWithIndexFrom_getElem g 0 values i

/-- C2: filter returns exactly the elements satisfying the condition, in the
original relative order (a sublist of the input), so its length is at most the
input's; for the index-aware overload every kept element satisfied the
condition at its original position. -/
theorem filter_contract {Item : Type} (values : List Item) (p : Item → Bool)
    (q : Item → Nat → Bool) :
    JS.filter values p = values.filter p ∧
    (JS.filter values p).length ≤ values.length ∧
    (∀ x ∈ JS.filter values p, p x = true) ∧
    List.Sublist (JS.filter values p) values ∧
    (JS.filterWithIndex values q).length ≤ values.length ∧
    List.Sublist (JS.filterWithIndex values q) values ∧
    (∀ x ∈ JS.filterWithIndex values q,
      ∃ k : Nat, values[k]? = some x ∧ q x k = true) := by
  have hsub : List.Sublist (JS.filter values p) values := by
    rw [JS.filter_eq_list_filter]
    exact List.filter_sublist values
  have hsubIdx : List.Sublist (JS.filterWithIndex values q) values :=
    JS.filterWithIndexFrom_sublist q 0 values
  refine ⟨JS.filter_eq_list_filter values p, hsub.length_le, ?_, hsub,
    hsubIdx.length_le, hsubIdx, ?_⟩
  · intro x hx
    rw [JS.filter_eq_list_filter] at hx
    exact (List.mem_filter.mp hx).2
  · intro x hx
    rw [JS.filterWithIndex, JS.filterWithIndexFrom_eq_calls] at hx
    rcases List.mem_map.mp hx with ⟨⟨cv, ck⟩, hc, hcx⟩
    rcases List.mem_filter.mp hc with ⟨hcmem, hcq⟩
    rcases List.mem_iff_getElem?.mp hcmem with ⟨k, hk⟩
    have hk2 := JS.filterWithIndexCallsFrom_getElem 0 values k
    rw [hk] at hk2
    cases hvk : values[k]? with
    | none => rw [hvk] at hk2; simp at hk2
    | some v =>
      rw [hvk] at hk2
      have hpair : (cv, ck) = (v, 0 + k) := Option.some.inj hk2
      have hcv : cv = v := congrArg Prod.fst hpair
      have hck : ck = 0 + k := congrArg Prod.snd hpair
      have hx1 : cv = x := hcx
      refine ⟨k, ?_, ?_⟩
      · rw [hvk, ← hx1, hcv]
      · have hq1 : q cv ck = true := hcq
        rw [hck] at hq1
        simp only [Nat.zero_add] at hq1
        rw [← hx1]
        exact hq1

/-- C3: reduce equals the left fold of the reducer over the elements in
ascending index order, from the accumulator's initial contents, whatever value
the default-initialised `Product result;` starts out holding. -/
theorem reduce_is_left_fold {Item Product : Type} (init : Product)
    (values : List Item) (r : Product → Item → Product) :
    JS.reduce init values r = values.foldl r init :=
  JS.reduceLoop_eq_foldl r init values

/-- C4 (code bug): reduce on the empty sequence returns the accumulator's
initial contents unchanged.  The source default-initialises `Product result;`,
which leaves scalar Products (such as `double`) with indeterminate contents,
so on empty input the result is whatever the indeterminate object held — for
instance initial contents 1 come back as 1, not as the zero-equivalent the
specification promises. -/
theorem reduce_empty_returns_initial_contents {Item Product : Type}
    (init : Product) (r : Product → Item → Product) :
    JS.reduce init ([] : List Item) r = init ∧
    JS.reduce (1 : Int) ([] : List Nat) (fun acc x => acc + x) = 1 ∧
    (1 : Int) ≠ 0 :=
  ⟨rfl, rfl, by decide⟩

/-- C5: the index-aware filter invokes its condition on `(values[k], k)` for
every original position k, independently of the condition (so independently of
how many earlier elements it rejects), and its output is exactly the first
components of the accepted calls. -/
theorem filter_index_is_original_position {Item : Type} (values : List Item)
    (q : Item → Nat → Bool) :
    (∀ k : Nat, (JS.filterWithIndexCalls values)[k]? =
      values[k]?.map (fun v => (v, k))) ∧
    JS.filterWithIndex values q =
      ((JS.filterWithIndexCalls values).filter (fun c => q c.1 c.2)).map Prod.fst := by
  constructor
  · intro k
    simpa using JS.filterWithIndexCallsFrom_getElem 0 values k
  · exact JS.filterWithIndexFrom_eq_calls q 0 values

/-- C6 (code bug in the reduce step): on the demonstration input, the
age >= 21 filter keeps the five records with ages [22, 21, 21, 24, 21]; the
even-index filter of that result keeps positions 0, 2, 4 with ages
[22, 21, 21]; the index-aware map produces exactly the three numbered name
strings.  The reduce step, however, sums the six original ages into the
uninitialized `double result;`: the total is the indeterminate initial
contents plus 127, which equals the claimed 127 only when those contents
happen to be zero — initial contents 1, for instance, give 128. -/
theorem demo_scenario :
    canDrinkAlcohol.map Person.age = [22, 21, 21, 24, 21] ∧
    everyEvenPerson.map Person.age = [22, 21, 21] ∧
    names = ["1. Butter Riolu", "2. Juke Duke", "3. Land Woof"] ∧
    (∀ init : Int, totalAge init = init + 127) ∧
    totalAge 1 ≠ 127 := by
  refine ⟨by decide, by decide, by decide, ?_, by decide⟩
  intro init
  show init + 22 + 21 + 21 + 24 + 18 + 21 = init + 127
  omega

/-- C7: filtering twice with the same condition gives the same result as
filtering once. -/
theorem filter_idempotent {Item : Type} (values : List Item) (p : Item → Bool) :
    JS.filter (JS.filter values p) p = JS.filter values p := by
  rw [JS.filter_eq_list_filter, JS.filter_eq_list_filter, List.filter_filter]
  simp

/-- C8: no operation mutates its input: running each source loop on the state
(input sequence, accumulator) ends with the input component identical to the
initial input sequence, for every input and callback. -/
theorem ops_never_mutate_input {Item Product : Type}
    (values : List Item) (f : Item → Product) (g : Item → Nat → Product)
    (p : Item → Bool) (q : Item → Nat → Bool) (r : Product → Item → Product)
    (init : Product) :
    (JS.mapRun values f).map Prod.fst = some values ∧
    (JS.mapWithIndexRun values g).map Prod.fst = some values ∧
    (JS.filterRun values p).map Prod.fst = some values ∧
    (JS.filterWithIndexRun values q).map Prod.fst = some values ∧
    (JS.reduceRun init values r).map Prod.fst = some values := by
  refine ⟨?_, ?_, ?_, ?_, ?_⟩ <;>
    simp [JS.mapRun, JS.mapWithIndexRun, JS.filterRun, JS.filterWithIndexRun,
      JS.reduceRun, JS.loopRun_full]

/-- C9: every element access of every operation's loop is in bounds: the
bounds-checked run of each loop never aborts, and it completes with exactly the
unchecked operation's result, for every input and callback. -/
theorem ops_accesses_in_bounds {Item Product : Type}
    (values : List Item) (f : Item → Product) (g : Item → Nat → Product)
    (p : Item → Bool) (q : Item → Nat → Bool) (r : Product → Item → Product)
    (init : Product) :
    JS.mapRun values f = some (values, JS.map values f) ∧
    JS.mapWithIndexRun values g = some (values, JS.mapWithIndex values g) ∧
    JS.filterRun values p = some (values, JS.filter values p) ∧
    JS.filterWithIndexRun values q = some (values, JS.filterWithIndex values q) ∧
    JS.reduceRun init values r = some (values, JS.reduce init values r) := by
  refine ⟨?_, ?_, ?_, ?_, ?_⟩
  · rw [JS.mapRun, JS.loopRun_full, JS.foldIdx_mapElemBody]
    simp
  · rw [JS.mapWithIndexRun, JS.loopRun_full, JS.foldIdx_mapBody]
    simp [JS.mapWithIndex]
  · rw [JS.filterRun, JS.loopRun_full, JS.foldIdx_filterElemBody]
    simp
  · rw [JS.filterWithIndexRun, JS.loopRun_full, JS.foldIdx_filterBody]
    simp [JS.filterWithIndex]
  · rw [JS.reduceRun, JS.loopRun_full, JS.foldIdx_reduceBody]
    simp [JS.reduce]

/-- C10: the implemented reduce is observably equal to the pure
returns-new-accumulator left fold prescribed by the spec, for every sequence,
every initial accumulator value (held common to the two formulations) and
every reducer (every reducer of the embedding returns its new accumulator and
cannot rely on aliasing). -/
theorem reduce_refines_pure_fold {Item Product : Type} (init : Product)
    (values : List Item) (r : Product → Item → Product) :
    JS.reduce init values r = JS.specReduce init values r :=
  JS.reduceLoop_eq_foldl r init values
